import Mathlib

/-!
# Verification of the tei-conversion structural extraction engine

Shallow embedding of `src/convert-to-tei.js` (the HTML/XHTML → TEI converter's
segmentation engine).  Strings are modelled as `List Char` (`Str`), matching
JavaScript string semantics character by character for the fragments the
claims exercise.  DOM trees are modelled by the inductive `Node`; node
identity (needed for the `node !== endEl` checks of the source) is modelled
by paths (`List Nat`) from the document root.
-/

/-- JavaScript strings, modelled as lists of characters. -/
abbrev Str := List Char

/-- The JavaScript `\s` character class (also the set trimmed by
`String.prototype.trim`): ASCII whitespace, NBSP, and the Unicode space
separators / line terminators / BOM. -/
def jsWs (c : Char) : Bool :=
  c.toNat = 32 ∨ c.toNat = 9 ∨ c.toNat = 10 ∨ c.toNat = 11 ∨ c.toNat = 12 ∨
  c.toNat = 13 ∨ c.toNat = 0xa0 ∨ c.toNat = 0x1680 ∨
  (0x2000 ≤ c.toNat ∧ c.toNat ≤ 0x200a) ∨ c.toNat = 0x2028 ∨
  c.toNat = 0x2029 ∨ c.toNat = 0x202f ∨ c.toNat = 0x205f ∨
  c.toNat = 0x3000 ∨ c.toNat = 0xfeff

/-- The JavaScript `\d` character class: the ten ASCII digits. -/
def jsDigit (c : Char) : Bool := '0' ≤ c ∧ c ≤ '9'

/-- The JavaScript `\w` character class (for `\b` word boundaries). -/
def jsWord (c : Char) : Bool :=
  ('a' ≤ c ∧ c ≤ 'z') ∨ ('A' ≤ c ∧ c ≤ 'Z') ∨ ('0' ≤ c ∧ c ≤ '9') ∨ c = '_'

/-- ASCII lowercasing plus the accented capitals appearing in the source's
label vocabulary (JavaScript `toLowerCase` on the relevant alphabet). -/
def jsLower (c : Char) : Char :=
  if 'A' ≤ c ∧ c ≤ 'Z' then Char.ofNat (c.toNat + 32)
  else if c = 'Á' then 'á' else if c = 'Í' then 'í'
  else if c = 'Ú' then 'ú' else if c = 'É' then 'é'
  else if c = 'Ó' then 'ó' else c

def lowerStr (s : Str) : Str := s.map jsLower

/-- `String.prototype.trim`. -/
def jsTrim (s : Str) : Str :=
  ((s.dropWhile jsWs).reverse.dropWhile jsWs).reverse

/-- The regex replacement `.replace(/\s+/g, ' ')`: every maximal run of
whitespace becomes a single space.  `inRun` records whether the previous
character was part of a whitespace run already emitted. -/
def collapseGo (inRun : Bool) : Str → Str
  | [] => []
  | c :: t =>
    if jsWs c then
      (if inRun then collapseGo true t else ' ' :: collapseGo true t)
    else c :: collapseGo false t

def collapseWs (s : Str) : Str := collapseGo false s

/-- One global literal-string replacement `.replace(/pat/g, c)` where the
replacement is a single character: a left-to-right, non-overlapping scan.
`skip` counts pattern characters already consumed by the current match. -/
def repGo (pat : Str) (c : Char) : Nat → Str → Str
  | _, [] => []
  | k + 1, _ :: t => repGo pat c k t
  | 0, a :: t =>
    if pat.isPrefixOf (a :: t) then c :: repGo pat c (pat.length - 1) t
    else a :: repGo pat c 0 t

def repAll (pat : Str) (c : Char) (s : Str) : Str := repGo pat c 0 s

/-- `cleanText` (src/convert-to-tei.js:17-23): collapse whitespace runs, then
replace `&nbsp;` by a space, then trim.  (`if (!text) return ''` is the
identity on the empty string.) -/
def cleanText (s : Str) : Str :=
  jsTrim (repAll "&nbsp;".toList ' ' (collapseWs s))

/-- The replacement table of `normalizeText` (src/convert-to-tei.js:39-53),
in source order.  The source's quote/dash replacement lines substitute each
character for itself (pattern bytes = replacement bytes), so they are
recorded here verbatim as identity single-character replacements. -/
def normTable : List (Str × Char) :=
  [("&aacute;".toList, 'á'), ("&iacute;".toList, 'í'), ("&uacute;".toList, 'ú'),
   ("&eacute;".toList, 'é'), ("&oacute;".toList, 'ó'),
   ("'".toList, '\''), ("'".toList, '\''), ("\"".toList, '"'), ("\"".toList, '"'),
   ("—".toList, '—'), ("–".toList, '–')]

/-- Apply a chain of global replacements left to right. -/
def applyReps (tbl : List (Str × Char)) (s : Str) : Str :=
  tbl.foldl (fun acc pr => repAll pr.1 pr.2 acc) s

/-- `normalizeText` (src/convert-to-tei.js:39-53). -/
def normalizeText (s : Str) : Str := applyReps normTable s

/-- The five named character entities of the table. -/
def namedEntities : List Str :=
  ["&aacute;".toList, "&iacute;".toList, "&uacute;".toList,
   "&eacute;".toList, "&oacute;".toList]

/-- The composite text normalizer as used throughout the engine: text leaves
go through `normalizeText`, aggregates through `cleanText`. -/
def normalizer (s : Str) : Str := cleanText (normalizeText s)

/-! ## stripLeadingNumber (src/convert-to-tei.js:29-34)

`text.replace(/^\s*(?:[\(\[])?\s*\d{1,3}(?:\s*[\.:\)\]])?(?:\s+|$)/, '')`.

The regex is resolved deterministically: giving characters back from any
`\s*` never helps (the follower is never a whitespace character), skipping a
present opening bracket never helps (the follower `\d` rejects a bracket),
and taking fewer than the maximal (≤ 3) digits never helps (the follower
would face the digit just given back, which is neither punctuation nor
whitespace nor the end).  The one live backtrack — undoing the optional
`(?:\s*[\.:\)\]])?` group when `(?:\s+|$)` fails after it — is encoded by
the fallback in `stripTailMatch`. -/

def numPunct (c : Char) : Bool := c = '.' ∨ c = ':' ∨ c = ')' ∨ c = ']'

/-- Matches `(?:\s+|$)` at `r`; returns the remainder after the match. -/
def wsPlusOrEnd (r : Str) : Option Str :=
  match r with
  | [] => some []
  | c :: _ => if jsWs c then some (r.dropWhile jsWs) else none

/-- Matches `(?:\s*[\.:\)\]])?(?:\s+|$)` at `r` (the part after the digits);
returns the remainder after the whole match. -/
def stripTailMatch (r : Str) : Option Str :=
  match (r.dropWhile jsWs : Str) with
  | p :: rest =>
    if numPunct p then
      match wsPlusOrEnd rest with
      | some rem => some rem
      | none => wsPlusOrEnd r
    else wsPlusOrEnd r
  | [] => some []

/-- The full anchored match of the stripLeadingNumber regex; `none` when the
regex does not match (in which case `replace` is the identity). -/
def stripMatch (s : Str) : Option Str :=
  let r1 := s.dropWhile jsWs
  let r2 := match r1 with
            | c :: t => if c = '(' ∨ c = '[' then t else r1
            | [] => r1
  let r3 := r2.dropWhile jsWs
  let ds := r3.takeWhile jsDigit
  if ds.length = 0 ∨ 3 < ds.length then none
  else stripTailMatch (r3.dropWhile jsDigit)

/-- `stripLeadingNumber` (src/convert-to-tei.js:29-34). -/
def stripLeadingNumber (s : Str) : Str :=
  match stripMatch s with
  | some rem => rem
  | none => s

/-! ## The DOM model

A document tree: text leaves and elements with a tag, an attribute list and
ordered children.  Tags and attribute names are stored as written; HTML tag
comparisons are done case-insensitively where the source relies on it.
Node identity is positional: a node is addressed by its `NPath` (the list of
child indices from the root). -/

inductive Node where
  | text : Str → Node
  | elem : Str → List (Str × Str) → List Node → Node

abbrev NPath := List Nat

/-- `getAttribute`: `none` models JavaScript's `null` for a missing
attribute (first occurrence wins for duplicated attributes). -/
def getAttr (attrs : List (Str × Str)) (nm : Str) : Option Str :=
  (attrs.find? (fun pr => decide (pr.1 = nm))).map (·.2)

/-- `(el.getAttribute('name') || el.getAttribute('id') || '')`: JavaScript
`||` skips both `null` and the empty string. -/
def rawAnchorName (attrs : List (Str × Str)) : Str :=
  let n := (getAttr attrs "name".toList).getD []
  if n ≠ [] then n else (getAttr attrs "id".toList).getD []

mutual
/-- Number of nodes in a subtree (for walk fuel bounds). -/
def nodeSize : Node → Nat
  | .text _ => 1
  | .elem _ _ cs => 1 + nodeSizeL cs
def nodeSizeL : List Node → Nat
  | [] => 0
  | c :: cs => nodeSize c + nodeSizeL cs
end

mutual
/-- `node.textContent`: concatenation of all descendant text leaves. -/
def textContent : Node → Str
  | .text s => s
  | .elem _ _ cs => textContentL cs
def textContentL : List Node → Str
  | [] => []
  | c :: cs => textContent c ++ textContentL cs
end

/-- Children of an element rooted at path `q`, paired with their paths,
starting at child index `i`. -/
def pchildren (q : NPath) : Nat → List Node → List (NPath × Node)
  | _, [] => []
  | i, c :: cs => (q ++ [i], c) :: pchildren q (i + 1) cs

mutual
/-- Document-order (pre-order) traversal with paths. -/
def preorder (p : NPath) : Node → List (NPath × Node)
  | .text s => [(p, .text s)]
  | .elem t a cs => (p, .elem t a cs) :: preorderL p 0 cs
def preorderL (p : NPath) : Nat → List Node → List (NPath × Node)
  | _, [] => []
  | i, c :: cs => preorder (p ++ [i]) c ++ preorderL p (i + 1) cs
end

/-! ## extractTextWithFormatting (src/convert-to-tei.js:58-98) -/

mutual
/-- The body of the `for (const child of node.childNodes)` loop: what one
child contributes to the extraction. -/
def extractChild : Node → Str
  | .text s => normalizeText s
  | .elem tag attrs cs =>
    let t := lowerStr tag
    if t = "i".toList ∨ t = "em".toList then
      "<hi rend=\"italic\">".toList ++ extractList cs ++ "</hi>".toList
    else if t = "b".toList ∨ t = "strong".toList then
      "<hi rend=\"bold\">".toList ++ extractList cs ++ "</hi>".toList
    else if t = "u".toList then
      "<hi rend=\"underline\">".toList ++ extractList cs ++ "</hi>".toList
    else if t = "sup".toList then
      "<hi rend=\"superscript\">".toList ++ extractList cs ++ "</hi>".toList
    else if t = "sub".toList then
      "<hi rend=\"subscript\">".toList ++ extractList cs ++ "</hi>".toList
    else if t = "a".toList then
      match getAttr attrs "href".toList with
      | some h =>
        if "http".toList.isPrefixOf h then
          "<ref target=\"".toList ++ h ++ "\">".toList ++ extractList cs ++ "</ref>".toList
        else extractList cs
      | none => extractList cs
    else if t = "br".toList then ['\n']
    else extractList cs
/-- Extraction of a child sequence, in document order. -/
def extractList : List Node → Str
  | [] => []
  | c :: cs => extractChild c ++ extractList cs
end

/-- `extractTextWithFormatting(node)` for a non-null node: iterates the
node's children (a text node has no children, so it yields nothing). -/
def extractTWF : Node → Str
  | .text _ => []
  | .elem _ _ cs => extractList cs

/-- `extractTextWithFormatting` including the `if (!node) return ''` guard:
the argument may be JavaScript `null`. -/
def extractTWFOpt : Option Node → Str
  | none => []
  | some n => extractTWF n

/-! ## The anchor grammar and catalog (src/convert-to-tei.js:123-134) -/

/-- One alternative `pfx\d+` of the anchor pattern (on a lowercased name). -/
def famNum (pfx : Str) (s : Str) : Bool :=
  pfx.isPrefixOf s ∧ (s.drop pfx.length ≠ [] ∧ (s.drop pfx.length).all jsDigit)

/-- The alternative `intro\d+[a-c]?` (on a lowercased name). -/
def introPat (s : Str) : Bool :=
  "intro".toList.isPrefixOf s &&
    (match (s.drop 5).reverse with
     | [] => false
     | c :: rest =>
       if c = 'a' ∨ c = 'b' ∨ c = 'c' then decide (rest ≠ []) && rest.all jsDigit
       else (c :: rest).all jsDigit)

/-- `/^(pref\d+|intro\d+[a-c]?|description\d+|par\d+|q\d+|note\d+)$/i`. -/
def anchorPattern (s : Str) : Bool :=
  let l := lowerStr s
  famNum "pref".toList l ∨ introPat l ∨ famNum "description".toList l ∨
  famNum "par".toList l ∨ famNum "q".toList l ∨ famNum "note".toList l

/-- A catalog entry: the (trimmed) marker name, the element's path (the
identity used by `node !== endEl`), and the walk state positioned at
`nextNode(el)` — the element's children followed by the pending sibling
lists of every ancestor. -/
structure CatEntry where
  name : Str
  path : NPath
  state : List (List (NPath × Node))

mutual
/-- The anchor catalog (src/convert-to-tei.js:123-134) in document order.
`querySelectorAll('a[name], *[id], *[name]')` selects every element carrying
a `name` or `id` attribute; elements without either produce the empty name
and are filtered exactly as in the source (`if (name && ...)`).  `up` is the
stack of pending right-sibling lists of the ancestors. -/
def anchorsOf (p : NPath) (up : List (List (NPath × Node))) : Node → List CatEntry
  | .text _ => []
  | .elem _ attrs cs =>
    let nm := jsTrim (rawAnchorName attrs)
    (if nm ≠ [] ∧ anchorPattern nm then
       [⟨nm, p, pchildren p 0 cs :: up⟩] else []) ++ anchorsOfL p 0 up cs
def anchorsOfL (p : NPath) : Nat → List (List (NPath × Node)) → List Node → List CatEntry
  | _, _, [] => []
  | i, up, c :: cs =>
    anchorsOf (p ++ [i]) (pchildren p (i + 1) cs :: up) c ++ anchorsOfL p (i + 1) up cs
end

/-- `anchorMap.get(name)`.  The source de-duplicates keeping the first
occurrence of each name; looking up the first match in the document-order
list is the same function. -/
def catFind (cat : List CatEntry) (nm : Str) : Option CatEntry :=
  cat.find? (fun e => decide (e.name = nm))

/-- `legacyHasContent` (src/convert-to-tei.js:165): the Strategy-A trigger. -/
def legacyHasContent (cat : List CatEntry) : Bool :=
  (catFind cat "par1".toList).isSome ∨ (catFind cat "intro1".toList).isSome ∨
  (catFind cat "pref1".toList).isSome

/-! ## collectBetween (src/convert-to-tei.js:136-162)

The walk holds a stack of pending sibling lists (innermost level first);
the current node is the head of the first non-empty level.  Stepping to
`nextSibling` stays in the level; exhausting a level climbs to the next
(`nextNode`'s parent climb); an element with no next sibling but with
children descends into them (`nextNode`'s `firstChild` branch — the source
walks back into a subtree it has already extracted wholesale).  The loop
stops at the end element (path identity), at any element whose raw
(untrimmed) `name`/`id` matches the anchor pattern, or at the end of the
document.  Fuel-driven so that the definition computes by kernel
reduction; `walkCollect` supplies sufficient fuel. -/

/-- The break test of src/convert-to-tei.js:150-151 (no trimming here). -/
def breakAnchor (attrs : List (Str × Str)) : Bool :=
  rawAnchorName attrs ≠ [] ∧ anchorPattern (rawAnchorName attrs)

def walkGo (endP : Option NPath) : Nat → List (List (NPath × Node)) → Str
  | 0, _ => []
  | _ + 1, [] => []
  | f + 1, [] :: up => walkGo endP f up
  | f + 1, ((q, .text s) :: sibs) :: up =>
    if endP = some q then []
    else normalizeText s ++ walkGo endP f (sibs :: up)
  | f + 1, ((q, .elem _tag attrs cs) :: sibs) :: up =>
    if endP = some q then []
    else if breakAnchor attrs then []
    else
      extractList cs ++
      match sibs with
      | _ :: _ => walkGo endP f (sibs :: up)
      | [] =>
        match cs with
        | _ :: _ => walkGo endP f (pchildren q 0 cs :: up)
        | [] => walkGo endP f up

/-- Total node count of one pending sibling level. -/
def lvlSize : List (NPath × Node) → Nat
  | [] => 0
  | pr :: rest => nodeSize pr.2 + lvlSize rest

/-- Fuel that strictly exceeds the number of walk steps possible from `st`. -/
def stBound : List (List (NPath × Node)) → Nat
  | [] => 0
  | l :: up => lvlSize l + stBound up + 1

def walkCollect (endP : Option NPath) (st : List (List (NPath × Node))) : Str :=
  walkGo endP (stBound st) st

/-- `collectBetween(el, nextEl)` given the catalog entries: raw walk then
`cleanText`. -/
def collectA (e : CatEntry) (endE : Option CatEntry) : Str :=
  cleanText (walkCollect (endE.map (·.path)) e.state)

/-! ## Strategy A (src/convert-to-tei.js:164-234) -/

abbrev Item := Str × Str

/-- The `sections` record (src/convert-to-tei.js:109-120). -/
structure Sections where
  preface : List Item
  introduction : List Item
  description : List Item
  text : List Item
  questions : List Item
  supplementary : List Item
  synopsis : List Item
  notes : List Item
  glossary : List Item
  keyPassages : List Item
deriving DecidableEq

def emptySections : Sections := ⟨[], [], [], [], [], [], [], [], [], []⟩

/-- `String(n)` for the natural numbers produced by the engine. -/
def natStr (n : Nat) : Str := Nat.toDigits 10 n

/-- One of the five Strategy-A family loops that `break` at the first
missing ordinal (preface, description, main text, questions, notes).
`post` is the identity except for main text and questions, where a leading
numeric label is stripped (guarded by `if (text)` in the source, which is
immaterial: stripping the empty string yields the empty string).  `fuel`
is the loop ceiling minus the iterations already done. -/
def scanFam (cat : List CatEntry) (pfx : Str) (post : Str → Str) : Nat → Nat → List Item
  | 0, _ => []
  | f + 1, i =>
    match catFind cat (pfx ++ natStr i) with
    | none => []
    | some e =>
      let raw := collectA e (catFind cat (pfx ++ natStr (i + 1)))
      let t := if raw = [] then [] else post raw
      (if t = [] then [] else [(natStr i, t)]) ++ scanFam cat pfx post f (i + 1)

/-- The next-marker name for introduction item `i` with suffix `suf`
(src/convert-to-tei.js:182-186). -/
def introNext (cat : List CatEntry) (i : Nat) (suf : Str) : Str :=
  if suf = [] then
    (if (catFind cat ("intro".toList ++ natStr i ++ "b".toList)).isSome then
       "intro".toList ++ natStr i ++ "b".toList
     else "intro".toList ++ natStr (i + 1))
  else if suf = "b".toList then
    (if (catFind cat ("intro".toList ++ natStr i ++ "c".toList)).isSome then
       "intro".toList ++ natStr i ++ "c".toList
     else "intro".toList ++ natStr (i + 1))
  else "intro".toList ++ natStr (i + 1)

/-- One suffix probe of the introduction loop body. -/
def introItem (cat : List CatEntry) (i : Nat) (suf : Str) : List Item :=
  match catFind cat ("intro".toList ++ natStr i ++ suf) with
  | none => []
  | some e =>
    let raw := collectA e (catFind cat (introNext cat i suf))
    if raw = [] then [] else [(natStr i ++ suf, raw)]

/-- The introduction loop (src/convert-to-tei.js:177-192).  Note: unlike
the other five families it does NOT break at a missing ordinal — it scans
every `i` up to the ceiling. -/
def introScan (cat : List CatEntry) : Nat → Nat → List Item
  | 0, _ => []
  | f + 1, i =>
    (introItem cat i [] ++ introItem cat i "b".toList ++ introItem cat i "c".toList) ++
      introScan cat f (i + 1)

/-- The Strategy-A section model (src/convert-to-tei.js:166-233). -/
def parseA (cat : List CatEntry) : Sections :=
  ⟨scanFam cat "pref".toList id 50 1,
   introScan cat 300 1,
   scanFam cat "description".toList id 100 1,
   scanFam cat "par".toList stripLeadingNumber 1000 1,
   scanFam cat "q".toList stripLeadingNumber 500 1,
   [], [],
   scanFam cat "note".toList id 1000 1,
   [], []⟩

/-! ## Strategy B: navigation-based segmentation (src/convert-to-tei.js:236-477)

(`collectSectionNodes`, src lines 266-292, is defined but never called in the
source and is therefore not modelled.) -/

/-- Tokens of a `class` attribute value, split on whitespace (CSS class
selector semantics). -/
def classToks : Str → Str → List Str
  | acc, [] => if acc = [] then [] else [acc.reverse]
  | acc, c :: t =>
    if jsWs c then
      (if acc = [] then classToks [] t else acc.reverse :: classToks [] t)
    else classToks (c :: acc) t

def hasClassTok (attrs : List (Str × Str)) (tok : Str) : Bool :=
  (classToks [] ((getAttr attrs "class".toList).getD [])).any (fun t => decide (t = tok))

/-- `document.querySelector('nav.gc')`: the first element in document order
with tag `nav` and class token `gc`. -/
def findNav (root : Node) : Option (NPath × Node) :=
  (preorder [] root).find? (fun pr =>
    match pr.2 with
    | .elem t a _ => lowerStr t = "nav".toList ∧ hasClassTok a "gc".toList
    | .text _ => false)

/-- The section enumeration reachable from `mapLabel` (the source's
`glossary` section is never assigned by Strategy B). -/
inductive SecType where
  | preface | introduction | description | text | supplementary
  | questions | synopsis | notes | keyPassages
deriving DecidableEq

/-- `mapLabel` (src/convert-to-tei.js:249-261). -/
def mapLabel (label : Str) : Option SecType :=
  let l := lowerStr label
  if "preface".toList.isPrefixOf l then some .preface
  else if "introduction".toList.isPrefixOf l then some .introduction
  else if "a description".toList.isPrefixOf l then some .description
  else if l = "the kitáb-i-aqdas".toList then some .text
  else if "some supplementary".toList.isPrefixOf l then some .supplementary
  else if "questions and answers".toList.isPrefixOf l then some .questions
  else if "a synopsis".toList.isPrefixOf l then some .synopsis
  else if l = "notes".toList then some .notes
  else if "key to passages".toList.isPrefixOf l then some .keyPassages
  else none

/-- The navigation entries: `nav.querySelectorAll('a[href^="#"]')` over the
descendants of the nav element, producing `(targetId, trimmedLabel)`. -/
def navEntries (np : NPath) (navCs : List Node) : List (Str × Str) :=
  (preorderL np 0 navCs).filterMap (fun pr =>
    match pr.2 with
    | .elem t a cs =>
      if lowerStr t = "a".toList then
        match getAttr a "href".toList with
        | some h =>
          if "#".toList.isPrefixOf h then
            some (h.drop 1, jsTrim (textContentL cs))
          else none
        | none => none
      else none
    | .text _ => none)

/-- `document.querySelector('a[id="..."]')`: first `a` element in document
order whose `id` attribute equals `idv` exactly. -/
def qsFirstAId (root : Node) (idv : Str) : Option NPath :=
  ((preorder [] root).find? (fun pr =>
    match pr.2 with
    | .elem t a _ => lowerStr t = "a".toList ∧ getAttr a "id".toList = some idv
    | .text _ => false)).map (·.1)

/-- `collectElementsBetween(startId, endId, selector)`
(src/convert-to-tei.js:295-324): the pre-order walk from `nextNode(start)`
up to (excluding) the end anchor node, filtered by the selector. -/
def elemsBetween (root : Node) (startId : Str) (endId : Option Str)
    (sel : Node → Bool) : List (NPath × Node) :=
  match qsFirstAId root startId with
  | none => []
  | some sp =>
    let endP : Option NPath := endId.bind (qsFirstAId root)
    let after := ((preorder [] root).dropWhile (fun pr => decide (¬ pr.1 = sp))).drop 1
    (after.takeWhile (fun pr => decide (¬ endP = some pr.1))).filter (fun pr => sel pr.2)

def selP : Node → Bool
  | .elem t _ _ => lowerStr t = "p".toList
  | .text _ => false

def selPLiDiv : Node → Bool
  | .elem t _ _ =>
    lowerStr t = "p".toList ∨ lowerStr t = "li".toList ∨ lowerStr t = "div".toList
  | .text _ => false

def selDivDd : Node → Bool
  | .elem t a _ => lowerStr t = "div".toList ∧ hasClassTok a "dd".toList
  | .text _ => false

mutual
/-- Whether a node (with its parent's tag) or one of its descendants matches
`'p, div > div, table, ul, ol, section, article'`. -/
def hbcGo (parentTag : Str) : Node → Bool
  | .text _ => false
  | .elem t _ cs =>
    (lowerStr t = "p".toList ∨ lowerStr t = "table".toList ∨
     lowerStr t = "ul".toList ∨ lowerStr t = "ol".toList ∨
     lowerStr t = "section".toList ∨ lowerStr t = "article".toList ∨
     (lowerStr t = "div".toList ∧ lowerStr parentTag = "div".toList)) ||
    hbcGoL t cs
def hbcGoL (parentTag : Str) : List Node → Bool
  | [] => false
  | c :: cs => hbcGo parentTag c || hbcGoL parentTag cs
end

/-- `hasBlockChild` (src/convert-to-tei.js:351): does a descendant match the
block selector (the scope element itself can serve as the `div` parent). -/
def hasBlockChild : Node → Bool
  | .text _ => false
  | .elem t _ cs => hbcGoL t cs

/-- The regex test `/\btok\b/` for a token made of word characters
(case-sensitive, as in the source's class checks). -/
def wordTokGo (tok : Str) : Bool → Str → Bool
  | _, [] => false
  | prevW, c :: rest =>
    (!prevW && tok.isPrefixOf (c :: rest) &&
      (match (c :: rest).drop tok.length with
       | [] => true
       | d :: _ => !jsWord d)) ||
    wordTokGo tok (jsWord c) rest

def wordTok (tok : Str) (s : Str) : Bool := wordTokGo tok false s

/-- The candidate filter for the questions section
(src/convert-to-tei.js:352-362). -/
def questionCandidate (n : Node) : Bool :=
  match n with
  | .text _ => false
  | .elem t a _ =>
    let cls := (getAttr a "class".toList).getD []
    if wordTok "dd".toList cls then false
    else if wordTok "ic".toList cls then false
    else if lowerStr t = "p".toList ∨ lowerStr t = "li".toList then true
    else if lowerStr t = "div".toList then !hasBlockChild n
    else false

/-! ## The Q&A disambiguation state machine (src/convert-to-tei.js:367-455) -/

/-- `parseInt` on the digit strings the machine produces and captures. -/
def parseDigits (ds : Str) : Nat := ds.foldl (fun a c => a * 10 + (c.toNat - 48)) 0

/-- `rawText.match(/^\s*(\d{1,3})(?:\s*[\.:\)\]])?\s*$/)`, returning the
captured number.  Deterministic residue of the regex: four or more leading
digits can never match (the digit given back by backtracking satisfies none
of punctuation, whitespace, end), and when the optional punctuation group is
taken but `\s*$` fails afterwards, the group-skipped fallback `\s*$` also
fails because the same punctuation character is still there. -/
def qaNumOnly (s : Str) : Option Nat :=
  let s1 := s.dropWhile jsWs
  let ds := s1.takeWhile jsDigit
  if ds.length = 0 ∨ 3 < ds.length then none
  else
    let r := s1.dropWhile jsDigit
    let ok : Bool :=
      match (r.dropWhile jsWs : Str) with
      | p :: rest => numPunct p && decide (rest.dropWhile jsWs = [])
      | [] => true
    if ok then some (parseDigits ds) else none

/-- `rawText.match(/^\s*(\d{1,3})(?:\s*[\.:\)\]])?/)`: with no end anchor,
the match succeeds exactly when optional whitespace is followed by a digit;
the capture is the first (up to) three digits. -/
def qaNumAtStart (s : Str) : Option Nat :=
  let ds := (s.dropWhile jsWs).takeWhile jsDigit
  if ds = [] then none else some (parseDigits (ds.take 3))

/-- Search for `/\blbl\s*[:—\-]/i` scanning a lowercased string;
`prevW` tells whether the previous character is a word character (for the
`\b`). -/
def labelGo (lbl : Str) : Bool → Str → Bool
  | _, [] => false
  | prevW, c :: rest =>
    (!prevW && lbl.isPrefixOf (c :: rest) &&
      (match ((c :: rest).drop lbl.length).dropWhile jsWs with
       | d :: _ => decide (d = ':' ∨ d = '—' ∨ d = '-')
       | [] => false)) ||
    labelGo lbl (jsWord c) rest

def isQuestionLabel (s : Str) : Bool := labelGo "question".toList false (lowerStr s)

def isAnswerLabel (s : Str) : Bool := labelGo "answer".toList false (lowerStr s)

/-- The machine state: the questions accumulated so far (flushes push into
`sections.questions`), the open item's ordinal and text, the numeric value
of the last flushed ordinal, and the FIFO queue of pending bare numbers. -/
structure QASt where
  items : List Item
  currentNum : Option Str
  prevNum : Nat
  pending : List Nat
  currentText : Str

/-- `flush()` (src/convert-to-tei.js:373-380).  `parseInt(currentOrdinal) ||
prevNum` keeps the old value when the parse yields 0 (0 is falsy). -/
def qaFlush (st : QASt) : QASt :=
  match st.currentNum with
  | some n =>
    if (jsTrim st.currentText).length > 0 then
      ⟨st.items ++ [(n, cleanText st.currentText)], none,
       (if parseDigits n = 0 then st.prevNum else parseDigits n), st.pending, []⟩
    else ⟨st.items, none, st.prevNum, st.pending, []⟩
  | none => ⟨st.items, none, st.prevNum, st.pending, []⟩

/-- One iteration of `for (const p of parasBetween)`
(src/convert-to-tei.js:381-444). -/
def qaStep (st : QASt) (p : Node) : QASt :=
  let rawText := jsTrim (textContent p)
  match qaNumOnly rawText with
  | some k => ⟨st.items, st.currentNum, st.prevNum, st.pending ++ [k], st.currentText⟩
  | none =>
    if isQuestionLabel rawText then
      let st1 := qaFlush st
      let nAndPend : Nat × List Nat :=
        match qaNumAtStart rawText with
        | some v => (v, st1.pending)
        | none =>
          match st1.pending with
          | q :: rest => (q, rest)
          | [] => (st1.prevNum + 1, [])
      let n := nAndPend.1
      let pend := nAndPend.2.dropWhile (fun x => decide (x = n))
      let t := stripLeadingNumber (cleanText (extractTWF p))
      ⟨st1.items, some (natStr n), st1.prevNum, pend, t⟩
    else if isAnswerLabel rawText ∧ st.currentNum.isSome then
      let t := stripLeadingNumber (cleanText (extractTWF p))
      ⟨st.items, st.currentNum, st.prevNum, st.pending, st.currentText ++ [' '] ++ t⟩
    else
      match st.currentNum with
      | none =>
        if isAnswerLabel rawText then st
        else
          let im : Option Nat :=
            match qaNumAtStart rawText with
            | some v => some v
            | none => st.pending.head?
          match im with
          | none => st
          | some v =>
            let pend1 :=
              match qaNumAtStart rawText with
              | some _ => st.pending
              | none => st.pending.drop 1
            let st1 := qaFlush st
            let pend2 := pend1.dropWhile (fun x => decide (x = v))
            let t := stripLeadingNumber (cleanText (extractTWF p))
            if t ≠ [] ∧ 2 < t.length then
              ⟨st1.items, some (natStr v), st1.prevNum, pend2, t⟩
            else
              ⟨st1.items, none, st1.prevNum, pend2, []⟩
      | some _ =>
        let t := stripLeadingNumber (cleanText (extractTWF p))
        if t ≠ [] then
          ⟨st.items, st.currentNum, st.prevNum, st.pending, st.currentText ++ [' '] ++ t⟩
        else st

/-- The end-of-range drain (src/convert-to-tei.js:447-454): a zero-text
placeholder for every remaining pending number not equal to the ordinal of
the last emitted item. -/
def qaDrain : List Nat → List Item → Nat → (List Item × Nat)
  | [], items, prev => (items, prev)
  | n :: rest, items, _ =>
    let items' :=
      if (items.getLast?).map (·.1) ≠ some (natStr n) then items ++ [(natStr n, [])]
      else items
    qaDrain rest items' n

/-- The whole questions pass over one block sequence
(src/convert-to-tei.js:367-455), starting from the items accumulated by
earlier navigation entries. -/
def qaRun (items0 : List Item) (blocks : List Node) : List Item :=
  let st := qaFlush (blocks.foldl qaStep ⟨items0, none, 0, [], []⟩)
  (qaDrain st.pending st.items st.prevNum).1

/-! ## Strategy B assembly (src/convert-to-tei.js:326-477) -/

/-- One note container (src/convert-to-tei.js:331-342). -/
def noteOfDiv (pr : NPath × Node) : Option Item :=
  match pr.2 with
  | .text _ => none
  | .elem _ _ cs =>
    let desc := preorderL pr.1 0 cs
    let titleSpan := desc.find? (fun d =>
      match d.2 with
      | .elem t a _ => lowerStr t = "span".toList ∧ hasClassTok a "jb".toList
      | .text _ => false)
    match titleSpan with
    | none => none
    | some sp =>
      let titleText := jsTrim (textContent sp.2)
      let noteNum := titleText.takeWhile jsDigit
      let paras := (desc.filter (fun d => selP d.2)).map (·.2)
      let noteText := paras.foldl (fun acc q => acc ++ [' '] ++ extractTWF q) []
      if jsTrim noteText ≠ [] then some (noteNum, cleanText noteText) else none

/-- The general-mode paragraph loop (src/convert-to-tei.js:468-474):
sequential ordinals from `counter`, leading numeric labels stripped for the
main text, blocks shorter than 3 characters dropped. -/
def generalItems (strip : Bool) : Nat → List Node → List Item
  | _, [] => []
  | ctr, p :: rest =>
    let t0 := cleanText (extractTWF p)
    let t := if strip then stripLeadingNumber t0 else t0
    if t = [] ∨ t.length < 3 then generalItems strip ctr rest
    else (natStr ctr, t) :: generalItems strip (ctr + 1) rest

/-- Append items to the section selected by `ty`. -/
def pushSec (s : Sections) (ty : SecType) (its : List Item) : Sections :=
  match ty with
  | .preface => ⟨s.preface ++ its, s.introduction, s.description, s.text, s.questions,
      s.supplementary, s.synopsis, s.notes, s.glossary, s.keyPassages⟩
  | .introduction => ⟨s.preface, s.introduction ++ its, s.description, s.text, s.questions,
      s.supplementary, s.synopsis, s.notes, s.glossary, s.keyPassages⟩
  | .description => ⟨s.preface, s.introduction, s.description ++ its, s.text, s.questions,
      s.supplementary, s.synopsis, s.notes, s.glossary, s.keyPassages⟩
  | .text => ⟨s.preface, s.introduction, s.description, s.text ++ its, s.questions,
      s.supplementary, s.synopsis, s.notes, s.glossary, s.keyPassages⟩
  | .questions => ⟨s.preface, s.introduction, s.description, s.text, s.questions ++ its,
      s.supplementary, s.synopsis, s.notes, s.glossary, s.keyPassages⟩
  | .supplementary => ⟨s.preface, s.introduction, s.description, s.text, s.questions,
      s.supplementary ++ its, s.synopsis, s.notes, s.glossary, s.keyPassages⟩
  | .synopsis => ⟨s.preface, s.introduction, s.description, s.text, s.questions,
      s.supplementary, s.synopsis ++ its, s.notes, s.glossary, s.keyPassages⟩
  | .notes => ⟨s.preface, s.introduction, s.description, s.text, s.questions,
      s.supplementary, s.synopsis, s.notes ++ its, s.glossary, s.keyPassages⟩
  | .keyPassages => ⟨s.preface, s.introduction, s.description, s.text, s.questions,
      s.supplementary, s.synopsis, s.notes, s.glossary, s.keyPassages ++ its⟩

/-- One iteration of the mapped-sections loop (src/convert-to-tei.js:326-475). -/
def stratBEntry (root : Node) (secs : Sections) (idv : Str) (ty : SecType)
    (nextId : Option Str) : Sections :=
  match ty with
  | .notes =>
    let noteDivs := elemsBetween root idv nextId selDivDd
    pushSec secs .notes (noteDivs.filterMap noteOfDiv)
  | .questions =>
    let blocks :=
      ((elemsBetween root idv nextId selPLiDiv).filter
        (fun pr => questionCandidate pr.2)).map (·.2)
    ⟨secs.preface, secs.introduction, secs.description, secs.text,
     qaRun secs.questions blocks,
     secs.supplementary, secs.synopsis, secs.notes, secs.glossary, secs.keyPassages⟩
  | _ =>
    let paras := (elemsBetween root idv nextId selP).map (·.2)
    let startIdx :=
      if ty = SecType.text then
        match paras with
        | p0 :: _ =>
          if "in the name of".toList.isPrefixOf (lowerStr (jsTrim (textContent p0)))
          then 1 else 0
        | [] => 0
      else 0
    pushSec secs ty (generalItems (ty = SecType.text) 1 (paras.drop startIdx))

/-- The loop over mapped navigation entries; `nextId` is the id of the next
mapped entry. -/
def bLoop (root : Node) : Sections → List (Str × SecType) → Sections
  | secs, [] => secs
  | secs, e :: rest =>
    bLoop root (stratBEntry root secs e.1 e.2 ((rest.head?).map (·.1))) rest

/-- Strategy B (src/convert-to-tei.js:236-477): no recognized navigation
block yields the empty model. -/
def stratB (root : Node) : Sections :=
  match findNav root with
  | none => emptySections
  | some (np, nav) =>
    let navCs := match nav with | .elem _ _ cs => cs | .text _ => []
    let mapped := (navEntries np navCs).filterMap
      (fun e => (mapLabel e.2).map (fun ty => (e.1, ty)))
    bLoop root emptySections mapped

/-- `parseDocument` (src/convert-to-tei.js:106-478): build the anchor
catalog; if a Strategy-A trigger marker is present the whole model comes
from Strategy A (the function returns before any navigation lookup),
otherwise Strategy B runs. -/
def parseDocument (root : Node) : Sections :=
  let cat := anchorsOf [] [] root
  if legacyHasContent cat then parseA cat else stratB root

/-! ## Predicates and concrete inputs used by the claim statements -/

/-- A whitespace run: two adjacent whitespace characters somewhere. -/
def hasWsRun : Str → Bool
  | a :: b :: t => (jsWs a && jsWs b) || hasWsRun (b :: t)
  | _ => false

/-- Neither the first nor the last character is whitespace. -/
def noEdgeWs (s : Str) : Bool :=
  (s.head?.all (fun c => !jsWs c)) && (s.getLast?.all (fun c => !jsWs c))

/-- What one walked node contributes when the Strategy-A walk visits it at
its own level: a text node its normalized text, an element the extraction
of its whole subtree. -/
def stepText : List (NPath × Node) → Str
  | [] => []
  | (_, .text s) :: rest => normalizeText s ++ stepText rest
  | (_, .elem _ _ cs) :: rest => extractList cs ++ stepText rest

/-- An element whose raw name/id stops the Strategy-A walk. -/
def nodeBreaks : Node → Bool
  | .text _ => false
  | .elem _ a _ => breakAnchor a

/-- A paragraph block containing a single text leaf (the block shapes of the
spec's Q&A scenarios). -/
def mkP (s : String) : Node := .elem "p".toList [] [.text s.toList]

/-- Q&A scenario 1 blocks (claim C1). -/
def blocksC1 : List Node :=
  [mkP "Question: What is fasting?", mkP "Answer: Abstention from food."]

/-- Q&A scenario 3 blocks (claim C6). -/
def blocksC6 : List Node := [mkP "3.", mkP "4.", mkP "Question: A", mkP "Answer: B"]

/-- A legacy document with an introduction gap: `intro1` and `intro3`
present, `intro2` absent (claim C2). -/
def docC2 : Node :=
  .elem "html".toList [] [.elem "body".toList [] [
    .elem "a".toList [("name".toList, "intro1".toList)] [],
    .text " alpha ".toList,
    .elem "a".toList [("name".toList, "intro3".toList)] [],
    .text " gamma ".toList]]

/-- A legacy document whose second main-text marker `par2` is nested inside
a `div` sibling that the walk for `par1` extracts wholesale (claim C3). -/
def docC3 : Node :=
  .elem "html".toList [] [.elem "body".toList [] [
    .elem "a".toList [("name".toList, "par1".toList)] [],
    .text " one ".toList,
    .elem "div".toList [] [
      .elem "a".toList [("name".toList, "par2".toList)] [],
      .text " two ".toList],
    .text " tail ".toList]]

/-- A legacy document with a single preface marker (witness input). -/
def docP : Node :=
  .elem "html".toList [] [.elem "body".toList [] [
    .elem "a".toList [("name".toList, "pref1".toList)] [],
    .text " Hello world ".toList]]

/-- A document carrying both a Strategy-A trigger (`pref1`) and a
structurally present navigation block (claim C7). -/
def docC7 : Node :=
  .elem "html".toList [] [.elem "body".toList [] [
    .elem "nav".toList [("class".toList, "gc".toList)]
      [.elem "a".toList [("href".toList, "#sec1".toList)] [.text "Preface".toList]],
    .elem "a".toList [("name".toList, "pref1".toList)] [],
    .text " P1 ".toList,
    .elem "a".toList [("id".toList, "sec1".toList)] [],
    .elem "p".toList [] [.text "Pp".toList]]]

/-- A document with neither legacy markers nor a navigation block (claim C8). -/
def docC8 : Node :=
  .elem "html".toList [] [.elem "body".toList [] [.elem "div".toList [] [.text "x".toList]]]

/-! ## Walk lemmas -/

theorem nodeSize_pos (n : Node) : 1 ≤ nodeSize n := by
  cases n <;> simp [nodeSize]

theorem lvlSize_pchildren (q : NPath) (cs : List Node) :
    ∀ i, lvlSize (pchildren q i cs) = nodeSizeL cs := by
  induction cs with
  | nil => intro i; simp [pchildren, lvlSize, nodeSizeL]
  | cons c cs ih => intro i; simp [pchildren, lvlSize, nodeSizeL, ih]

theorem walkGo_nil (endP : Option NPath) (f : Nat) : walkGo endP f [] = [] := by
  cases f <;> simp [walkGo]

theorem walkGo_congr (endP : Option NPath) :
    ∀ (f g : Nat) (st : List (List (NPath × Node))), stBound st ≤ f → stBound st ≤ g →
      walkGo endP f st = walkGo endP g st := by
  intro f
  induction f using Nat.strong_induction_on with
  | _ f IH =>
    intro g st hf hg
    match st with
    | [] => rw [walkGo_nil, walkGo_nil]
    | l :: up =>
      have hpos : 1 ≤ stBound (l :: up) := by simp [stBound]
      obtain ⟨f', rfl⟩ := Nat.exists_eq_succ_of_ne_zero (show f ≠ 0 by omega)
      obtain ⟨g', rfl⟩ := Nat.exists_eq_succ_of_ne_zero (show g ≠ 0 by omega)
      match l with
      | [] =>
        have hup : stBound up + 1 = stBound ([] :: up) := by simp [stBound, lvlSize]
        simp only [walkGo]
        exact IH f' (by omega) g' up (by omega) (by omega)
      | (q, Node.text s) :: sibs =>
        have hs : stBound (((q, Node.text s) :: sibs) :: up)
            = stBound (sibs :: up) + 1 := by
          simp [stBound, lvlSize, nodeSize]; omega
        simp only [walkGo]
        by_cases hq : endP = some q
        · simp [hq]
        · simp only [hq, if_false]
          rw [IH f' (by omega) g' (sibs :: up) (by omega) (by omega)]
      | (q, Node.elem tag attrs cs) :: sibs =>
        have hsz : stBound (((q, Node.elem tag attrs cs) :: sibs) :: up)
            = nodeSizeL cs + lvlSize sibs + stBound up + 2 := by
          simp [stBound, lvlSize, nodeSize]; omega
        simp only [walkGo]
        by_cases hq : endP = some q
        · simp [hq]
        · by_cases hbr : breakAnchor attrs
          · simp [hq, hbr]
          · simp only [hq, hbr, if_false, Bool.false_eq_true]
            congr 1
            match sibs with
            | x :: sibs' =>
              have h1 : stBound ((x :: sibs') :: up)
                  = lvlSize (x :: sibs') + stBound up + 1 := by simp [stBound]
              exact IH f' (by omega) g' ((x :: sibs') :: up) (by omega) (by omega)
            | [] =>
              match cs with
              | y :: cs' =>
                have h1 : stBound (pchildren q 0 (y :: cs') :: up)
                    = nodeSizeL (y :: cs') + stBound up + 1 := by
                  simp [stBound, lvlSize_pchildren]
                have h2 : lvlSize ([] : List (NPath × Node)) = 0 := by simp [lvlSize]
                exact IH f' (by omega) g' (pchildren q 0 (y :: cs') :: up) (by omega) (by omega)
              | [] =>
                have h2 : lvlSize ([] : List (NPath × Node)) = 0 := by simp [lvlSize]
                have h3 : nodeSizeL ([] : List Node) = 0 := by simp [nodeSizeL]
                exact IH f' (by omega) g' up (by omega) (by omega)

theorem walkGo_eq_collect (endP : Option NPath) (f : Nat)
    (st : List (List (NPath × Node))) (h : stBound st ≤ f) :
    walkGo endP f st = walkCollect endP st :=
  walkGo_congr endP f (stBound st) st h (le_refl _)

theorem walkCollect_text (endP : Option NPath) (q : NPath) (s : Str)
    (sibs : List (NPath × Node)) (up : List (List (NPath × Node))) :
    walkCollect endP (((q, Node.text s) :: sibs) :: up)
      = if endP = some q then [] else normalizeText s ++ walkCollect endP (sibs :: up) := by
  have h : stBound (((q, Node.text s) :: sibs) :: up) = stBound (sibs :: up) + 1 := by
    simp [stBound, lvlSize, nodeSize]; omega
  unfold walkCollect
  rw [h]
  simp only [walkGo]

theorem walkCollect_break (endP : Option NPath) (q : NPath) (tag : Str)
    (attrs : List (Str × Str)) (cs : List Node) (sibs : List (NPath × Node))
    (up : List (List (NPath × Node))) (hbr : breakAnchor attrs = true) :
    walkCollect endP (((q, Node.elem tag attrs cs) :: sibs) :: up) = [] := by
  have h : stBound (((q, Node.elem tag attrs cs) :: sibs) :: up)
      = (nodeSizeL cs + lvlSize sibs + stBound up + 1) + 1 := by
    simp [stBound, lvlSize, nodeSize]; omega
  unfold walkCollect
  rw [h]
  simp only [walkGo]
  by_cases hq : endP = some q
  · simp [hq]
  · simp [hq, hbr]

theorem walkCollect_elem_cons (endP : Option NPath) (q : NPath) (tag : Str)
    (attrs : List (Str × Str)) (cs : List Node) (x : NPath × Node)
    (sibs' : List (NPath × Node)) (up : List (List (NPath × Node))) :
    walkCollect endP (((q, Node.elem tag attrs cs) :: x :: sibs') :: up)
      = if endP = some q then []
        else if breakAnchor attrs then []
        else extractList cs ++ walkCollect endP ((x :: sibs') :: up) := by
  have h : stBound (((q, Node.elem tag attrs cs) :: x :: sibs') :: up)
      = (nodeSizeL cs + stBound ((x :: sibs') :: up)) + 1 := by
    simp [stBound, lvlSize, nodeSize]; omega
  unfold walkCollect
  rw [h]
  simp only [walkGo]
  by_cases hq : endP = some q
  · simp [hq]
  · by_cases hbr : breakAnchor attrs
    · simp [hq, hbr]
    · simp only [hq, hbr, if_false, Bool.false_eq_true]
      rw [walkGo_eq_collect endP _ _ (by omega)]
      rfl

/-- Core of the amended disjointness property: when every node strictly
between two markers sits at the level the walk traverses, is not itself an
anchor, and is not the end element, and the next marker is a pattern
anchor, the walk yields exactly the contributions of the in-between nodes —
nothing at or after the next marker is touched. -/
theorem walk_between (endP : Option NPath) (mq : NPath) (mtag : Str)
    (mattrs : List (Str × Str)) (mcs : List Node)
    (hm : breakAnchor mattrs = true) :
    ∀ (between after : List (NPath × Node)) (up : List (List (NPath × Node))),
      (∀ pr ∈ between, nodeBreaks pr.2 = false) →
      (∀ pr ∈ between, ¬ endP = some pr.1) →
      walkCollect endP ((between ++ (mq, Node.elem mtag mattrs mcs) :: after) :: up)
        = stepText between := by
  intro between
  induction between with
  | nil =>
    intro after up _ _
    simpa [stepText] using walkCollect_break endP mq mtag mattrs mcs after up hm
  | cons pr rest ih =>
    intro after up h1 h2
    obtain ⟨q, n⟩ := pr
    have hq : ¬ endP = some q := h2 (q, n) (by simp)
    cases n with
    | text s =>
      rw [List.cons_append, walkCollect_text]
      simp only [hq, if_false]
      rw [ih after up (fun x hx => h1 x (by simp [hx])) (fun x hx => h2 x (by simp [hx]))]
      simp [stepText]
    | elem t a cs =>
      have hbr : breakAnchor a = false := by
        have := h1 (q, Node.elem t a cs) (by simp)
        simpa [nodeBreaks] using this
      obtain ⟨x, xs, hxs⟩ : ∃ x xs,
          rest ++ (mq, Node.elem mtag mattrs mcs) :: after = x :: xs := by
        cases rest with
        | nil => exact ⟨_, _, rfl⟩
        | cons r rs => exact ⟨_, _, rfl⟩
      rw [List.cons_append, hxs, walkCollect_elem_cons]
      simp only [hq, hbr, if_false, Bool.false_eq_true]
      rw [← hxs, ih after up (fun y hy => h1 y (by simp [hy])) (fun y hy => h2 y (by simp [hy]))]
      simp [stepText]

/-! ## Strategy A scan lemmas -/

theorem scanFam_mem (cat : List CatEntry) (pfx : Str) (post : Str → Str) :
    ∀ (fuel i : Nat) (it : Item), it ∈ scanFam cat pfx post fuel i →
      ∃ n, it.1 = natStr n ∧ i ≤ n ∧
        ∀ m, i ≤ m → m ≤ n → (catFind cat (pfx ++ natStr m)).isSome = true := by
  intro fuel
  induction fuel with
  | zero => intro i it h; simp [scanFam] at h
  | succ f ih =>
    intro i it h
    rw [scanFam] at h
    cases hfind : catFind cat (pfx ++ natStr i) with
    | none => rw [hfind] at h; simp at h
    | some e =>
      rw [hfind] at h
      rcases List.mem_append.mp h with hl | hr
      · by_cases ht : (if collectA e (catFind cat (pfx ++ natStr (i + 1))) = [] then []
            else post (collectA e (catFind cat (pfx ++ natStr (i + 1))))) = []
        · simp [ht] at hl
        · simp only [ht, if_false] at hl
          simp at hl
          refine ⟨i, by rw [hl], le_refl i, fun m hm1 hm2 => ?_⟩
          have : m = i := le_antisymm hm2 hm1
          subst this
          simp [hfind]
      · obtain ⟨n, h1, h2, h3⟩ := ih (i + 1) it hr
        refine ⟨n, h1, by omega, fun m hm1 hm2 => ?_⟩
        by_cases hmi : m = i
        · subst hmi; simp [hfind]
        · exact h3 m (by omega) hm2

theorem scanFam_length (cat : List CatEntry) (pfx : Str) (post : Str → Str) :
    ∀ (fuel i : Nat), (scanFam cat pfx post fuel i).length ≤ fuel := by
  intro fuel
  induction fuel with
  | zero => intro i; simp [scanFam]
  | succ f ih =>
    intro i
    rw [scanFam]
    cases catFind cat (pfx ++ natStr i) with
    | none => simp
    | some e =>
      simp only [List.length_append]
      have h1 : (if (if collectA e (catFind cat (pfx ++ natStr (i + 1))) = [] then []
          else post (collectA e (catFind cat (pfx ++ natStr (i + 1))))) = []
          then ([] : List Item)
          else [(natStr i, (if collectA e (catFind cat (pfx ++ natStr (i + 1))) = [] then []
            else post (collectA e (catFind cat (pfx ++ natStr (i + 1))))))]).length ≤ 1 := by
        split <;> (try split) <;> simp
      have h2 := ih (i + 1)
      omega

theorem introItem_length (cat : List CatEntry) (i : Nat) (suf : Str) :
    (introItem cat i suf).length ≤ 1 := by
  rw [introItem]
  split
  · simp
  · dsimp only
    split <;> simp

theorem introScan_length (cat : List CatEntry) :
    ∀ (fuel i : Nat), (introScan cat fuel i).length ≤ 3 * fuel := by
  intro fuel
  induction fuel with
  | zero => intro i; simp [introScan]
  | succ f ih =>
    intro i
    rw [introScan]
    simp only [List.length_append]
    have h1 := introItem_length cat i []
    have h2 := introItem_length cat i "b".toList
    have h3 := introItem_length cat i "c".toList
    have h4 := ih (i + 1)
    omega

theorem introScan_mem (cat : List CatEntry) :
    ∀ (fuel i0 i : Nat) (suf : Str) (it : Item),
      (suf = [] ∨ suf = "b".toList ∨ suf = "c".toList) →
      i0 ≤ i → i < i0 + fuel → it ∈ introItem cat i suf →
      it ∈ introScan cat fuel i0 := by
  intro fuel
  induction fuel with
  | zero => intro i0 i suf it _ _ h; omega
  | succ f ih =>
    intro i0 i suf it hsuf h1 h2 hmem
    rw [introScan]
    by_cases hi : i = i0
    · subst hi
      rcases hsuf with h | h | h <;> subst h <;>
        simp only [List.mem_append] <;> tauto
    · have := ih (i0 + 1) i suf it hsuf (by omega) (by omega) hmem
      simp only [List.mem_append]
      tauto

/-! ## Replacement-scan lemmas -/

theorem repGo_skip (pat : Str) (c : Char) :
    ∀ (k : Nat) (s : Str), repGo pat c k s = repGo pat c 0 (s.drop k) := by
  intro k
  induction k with
  | zero => intro s; simp
  | succ k ih =>
    intro s
    cases s with
    | nil => cases k <;> simp [repGo]
    | cons a t => simp [repGo, ih]

/-- A pattern-free string with the replacement character absent cannot gain
a prefix occurrence from the scan. -/
theorem repGo_pres_pref (pat : Str) (c : Char) :
    ∀ (s q : Str), c ∉ q → q <+: repGo pat c 0 s → q <+: s := by
  intro s
  induction s with
  | nil => intro q _ h; simpa [repGo] using h
  | cons a t ih =>
    intro q hc h
    rw [repGo] at h
    by_cases hp : pat.isPrefixOf (a :: t)
    · rw [if_pos hp] at h
      cases q with
      | nil => exact List.nil_prefix
      | cons b q' =>
        rw [List.cons_prefix_cons] at h
        exact absurd (h.1 ▸ List.mem_cons_self b q') hc
    · rw [if_neg hp] at h
      cases q with
      | nil => exact List.nil_prefix
      | cons b q' =>
        rw [List.cons_prefix_cons] at h
        rw [List.cons_prefix_cons]
        exact ⟨h.1, ih q' (fun hm => hc (List.mem_cons_of_mem b hm)) h.2⟩

theorem repGo_pres_inf (pat : Str) (c : Char) :
    ∀ (n : Nat) (s q : Str), s.length ≤ n → c ∉ q →
      q <:+: repGo pat c 0 s → q <:+: s := by
  intro n
  induction n with
  | zero =>
    intro s q hn _ h
    have : s = [] := List.eq_nil_of_length_eq_zero (by omega)
    subst this
    simpa [repGo] using h
  | succ n ih =>
    intro s q hn hc h
    cases s with
    | nil => simpa [repGo] using h
    | cons a t =>
      rw [repGo] at h
      by_cases hp : pat.isPrefixOf (a :: t)
      · rw [if_pos hp] at h
        rcases List.infix_cons_iff.mp h with hpre | hinf
        · cases q with
          | nil => exact List.nil_infix
          | cons b q' =>
            rw [List.cons_prefix_cons] at hpre
            exact absurd (hpre.1 ▸ List.mem_cons_self b q') hc
        · rw [repGo_skip] at hinf
          have h1 : q <:+: t.drop (pat.length - 1) := by
            apply ih _ q _ hc hinf
            have := List.length_drop (pat.length - 1) t
            simp at hn ⊢
            omega
          exact List.infix_cons (h1.trans (List.drop_suffix _ _).isInfix)
      · rw [if_neg hp] at h
        rcases List.infix_cons_iff.mp h with hpre | hinf
        · have : q <+: repGo pat c 0 (a :: t) := by
            rw [repGo, if_neg hp]; exact hpre
          exact (repGo_pres_pref pat c (a :: t) q hc this).isInfix
        · exact List.infix_cons (ih t q (by simpa using Nat.lt_succ_iff.mp (by simp at hn; omega)) hc hinf)

/-- The scan eradicates its own pattern when the replacement character does
not occur in the pattern. -/
theorem repGo_kill (pat : Str) (c : Char) (hne : pat ≠ []) (hc : c ∉ pat) :
    ∀ (n : Nat) (s : Str), s.length ≤ n → ¬ pat <:+: repGo pat c 0 s := by
  intro n
  induction n with
  | zero =>
    intro s hn h
    have : s = [] := List.eq_nil_of_length_eq_zero (by omega)
    subst this
    simp [repGo] at h
    exact hne h
  | succ n ih =>
    intro s hn h
    cases s with
    | nil =>
      simp [repGo] at h
      exact hne h
    | cons a t =>
      rw [repGo] at h
      by_cases hp : pat.isPrefixOf (a :: t)
      · rw [if_pos hp] at h
        rcases List.infix_cons_iff.mp h with hpre | hinf
        · cases hpat : pat with
          | nil => exact hne hpat
          | cons b p' =>
            rw [hpat, List.cons_prefix_cons] at hpre
            exact hc (hpre.1 ▸ hpat ▸ List.mem_cons_self b p')
        · rw [repGo_skip] at hinf
          refine ih (t.drop (pat.length - 1)) ?_ hinf
          have := List.length_drop (pat.length - 1) t
          simp at hn ⊢
          omega
      · rw [if_neg hp] at h
        rcases List.infix_cons_iff.mp h with hpre | hinf
        · have : pat <+: repGo pat c 0 (a :: t) := by
            rw [repGo, if_neg hp]; exact hpre
          have h2 := repGo_pres_pref pat c (a :: t) pat hc this
          exact hp (List.isPrefixOf_iff_prefix.mpr h2)
        · exact ih t (by simp at hn; omega) hinf

/-- A string free of the pattern is left unchanged by the scan. -/
theorem repGo_noop (pat : Str) (c : Char) :
    ∀ s : Str, ¬ pat <:+: s → repGo pat c 0 s = s := by
  intro s
  induction s with
  | nil => cases pat <;> simp [repGo]
  | cons a t ih =>
    intro h
    rw [repGo]
    have hp : pat.isPrefixOf (a :: t) = false := by
      by_contra hx
      simp only [Bool.not_eq_false] at hx
      exact h (List.isPrefixOf_iff_prefix.mp hx).isInfix
    rw [hp]
    simp only [Bool.false_eq_true, if_false, List.cons.injEq, true_and]
    exact ih (fun hinf => h (List.infix_cons hinf))

/-! ## Whitespace-collapse and trim lemmas -/

theorem collapseGo_true_head (t : Str) :
    ∀ x, (collapseGo true t).head? = some x → jsWs x = false := by
  induction t with
  | nil => intro x h; simp [collapseGo] at h
  | cons d t ih =>
    intro x h
    rw [collapseGo] at h
    by_cases hd : jsWs d
    · rw [if_pos hd] at h
      exact ih x (by simpa using h)
    · rw [if_neg hd] at h
      simp at h
      subst h
      simpa using hd

theorem collapseGo_noRun : ∀ (t : Str) (b : Bool), hasWsRun (collapseGo b t) = false := by
  intro t
  induction t with
  | nil => intro b; simp [collapseGo, hasWsRun]
  | cons c t ih =>
    intro b
    rw [collapseGo]
    by_cases hcw : jsWs c
    · rw [if_pos hcw]
      cases b with
      | true => simpa using ih true
      | false =>
        simp only [Bool.false_eq_true, if_false]
        cases hX : collapseGo true t with
        | nil => simp [hasWsRun]
        | cons x xs =>
          have hx : jsWs x = false := collapseGo_true_head t x (by rw [hX]; rfl)
          have := ih true
          rw [hX] at this
          simp [hasWsRun, hx, this]
    · rw [if_neg hcw]
      cases hX : collapseGo false t with
      | nil => simp [hasWsRun]
      | cons x xs =>
        have := ih false
        rw [hX] at this
        simp [hasWsRun, hcw, this]

theorem collapseWs_pres_pref :
    ∀ (s q : Str), ' ' ∉ q → q <+: collapseWs s → q <+: s := by
  intro s
  induction s with
  | nil => intro q _ h; simpa [collapseWs, collapseGo] using h
  | cons c t ih =>
    intro q hq h
    rw [collapseWs, collapseGo] at h
    by_cases hcw : jsWs c
    · rw [if_pos hcw] at h
      simp only [Bool.false_eq_true, if_false] at h
      cases q with
      | nil => exact List.nil_prefix
      | cons b q' =>
        rw [List.cons_prefix_cons] at h
        exact absurd (h.1 ▸ List.mem_cons_self b q') hq
    · rw [if_neg hcw] at h
      cases q with
      | nil => exact List.nil_prefix
      | cons b q' =>
        rw [List.cons_prefix_cons] at h
        rw [List.cons_prefix_cons]
        exact ⟨h.1, ih q' (fun hm => hq (List.mem_cons_of_mem b hm)) h.2⟩

theorem collapseGo_pres_inf :
    ∀ (s : Str) (b : Bool) (q : Str), ' ' ∉ q → q <:+: collapseGo b s → q <:+: s := by
  intro s
  induction s with
  | nil => intro b q _ h; simpa [collapseGo] using h
  | cons c t ih =>
    intro b q hq h
    rw [collapseGo] at h
    by_cases hcw : jsWs c
    · rw [if_pos hcw] at h
      cases b with
      | true => exact List.infix_cons (ih true q hq (by simpa using h))
      | false =>
        simp only [Bool.false_eq_true, if_false] at h
        rcases List.infix_cons_iff.mp h with hpre | hinf
        · cases q with
          | nil => exact List.nil_infix
          | cons b' q' =>
            rw [List.cons_prefix_cons] at hpre
            exact absurd (hpre.1 ▸ List.mem_cons_self b' q') hq
        · exact List.infix_cons (ih true q hq hinf)
    · rw [if_neg hcw] at h
      rcases List.infix_cons_iff.mp h with hpre | hinf
      · have : q <+: collapseWs (c :: t) := by
          rw [collapseWs, collapseGo, if_neg hcw]; exact hpre
        exact (collapseWs_pres_pref (c :: t) q hq this).isInfix
      · exact List.infix_cons (ih false q hq hinf)

theorem head_dropWhile_not (p : Char → Bool) :
    ∀ (l : Str) (x : Char), (l.dropWhile p).head? = some x → p x = false := by
  intro l
  induction l with
  | nil => intro x h; simp at h
  | cons a t ih =>
    intro x h
    rw [List.dropWhile] at h
    by_cases ha : p a
    · rw [ha] at h; exact ih x h
    · rw [Bool.not_eq_true] at ha
      rw [ha] at h
      simp at h
      subst h
      exact ha

theorem jsTrim_noEdge (s : Str) : noEdgeWs (jsTrim s) = true := by
  rw [jsTrim]
  cases hur : ((s.dropWhile jsWs).reverse.dropWhile jsWs).reverse with
  | nil => simp [noEdgeWs]
  | cons v vs =>
    have hpre : ((s.dropWhile jsWs).reverse.dropWhile jsWs).reverse <+: s.dropWhile jsWs := by
      have h1 : (s.dropWhile jsWs).reverse.dropWhile jsWs <:+ (s.dropWhile jsWs).reverse :=
        List.dropWhile_suffix jsWs
      have h2 := List.reverse_prefix.mpr h1
      simpa using h2
    obtain ⟨r, hr⟩ := hpre
    rw [hur] at hr
    have hv : jsWs v = false := by
      apply head_dropWhile_not jsWs s v
      rw [← hr]
      rfl
    have hlast : (v :: vs).getLast? = ((s.dropWhile jsWs).reverse.dropWhile jsWs).head? := by
      rw [← hur]
      exact List.getLast?_reverse _
    obtain ⟨w, hw⟩ : ∃ w, ((s.dropWhile jsWs).reverse.dropWhile jsWs).head? = some w := by
      cases hcu : (s.dropWhile jsWs).reverse.dropWhile jsWs with
      | nil => rw [hcu] at hur; simp at hur
      | cons a b => exact ⟨a, by simp [hcu]⟩
    have hwws : jsWs w = false := head_dropWhile_not jsWs _ w hw
    rw [noEdgeWs]
    rw [hw] at hlast
    simp [hlast, hv, hwws]

/-- The trimmed string occurs inside the original. -/
theorem jsTrim_occurs_in (s : Str) : jsTrim s <:+: s := by
  rw [jsTrim]
  have hpre : ((s.dropWhile jsWs).reverse.dropWhile jsWs).reverse <+: s.dropWhile jsWs := by
    have h1 : (s.dropWhile jsWs).reverse.dropWhile jsWs <:+ (s.dropWhile jsWs).reverse :=
      List.dropWhile_suffix jsWs
    have h2 := List.reverse_prefix.mpr h1
    simpa using h2
  exact hpre.isInfix.trans (List.dropWhile_suffix jsWs).isInfix

/-! ## Whitespace-run lemmas -/

theorem hasWsRun_cons_cons (a b : Char) (t : Str) :
    hasWsRun (a :: b :: t) = ((jsWs a && jsWs b) || hasWsRun (b :: t)) := rfl

theorem hasWsRun_append_right (y : Str) :
    ∀ x : Str, hasWsRun (x ++ y) = false → hasWsRun y = false := by
  intro x
  induction x with
  | nil => intro h; simpa using h
  | cons a x' ih =>
    intro h
    apply ih
    cases hxy : x' ++ y with
    | nil => rfl
    | cons z zs =>
      rw [List.cons_append, hxy, hasWsRun_cons_cons] at h
      exact (Bool.or_eq_false_iff.mp h).2

theorem hasWsRun_append_left (y : Str) :
    ∀ x : Str, hasWsRun (x ++ y) = false → hasWsRun x = false := by
  intro x
  induction x with
  | nil => intro _; rfl
  | cons a x' ih =>
    intro h
    cases x' with
    | nil => rfl
    | cons b x'' =>
      rw [List.cons_append, List.cons_append, hasWsRun_cons_cons] at h
      rw [← List.cons_append] at h
      have h2 := Bool.or_eq_false_iff.mp h
      rw [hasWsRun_cons_cons]
      rw [Bool.or_eq_false_iff]
      exact ⟨h2.1, ih h2.2⟩

theorem hasWsRun_of_occur {q s : Str} (hqs : q <:+: s) (h : hasWsRun s = false) :
    hasWsRun q = false := by
  obtain ⟨u, v, huv⟩ := hqs
  subst huv
  have h1 : hasWsRun (q ++ v) = false :=
    hasWsRun_append_right (q ++ v) u (by rwa [List.append_assoc] at h)
  exact hasWsRun_append_left v q h1

/-! ## Replacement-chain lemmas -/

theorem applyReps_cons (pr : Str × Char) (tbl : List (Str × Char)) (s : Str) :
    applyReps (pr :: tbl) s = applyReps tbl (repAll pr.1 pr.2 s) := by
  rw [applyReps, List.foldl_cons]; rfl

theorem applyReps_append (pre post : List (Str × Char)) (s : Str) :
    applyReps (pre ++ post) s = applyReps post (applyReps pre s) := by
  rw [applyReps, List.foldl_append]; rfl

theorem repAll_no_occur (pat : Str) (c : Char) (q s : Str) (hc : c ∉ q)
    (h : ¬ q <:+: s) : ¬ q <:+: repAll pat c s :=
  fun hinf => h (repGo_pres_inf pat c s.length s q le_rfl hc hinf)

theorem applyReps_no_occur (q : Str) :
    ∀ (tbl : List (Str × Char)) (s : Str), (∀ pr ∈ tbl, pr.2 ∉ q) →
      ¬ q <:+: s → ¬ q <:+: applyReps tbl s := by
  intro tbl
  induction tbl with
  | nil => intro s _ h; simpa [applyReps] using h
  | cons pr tbl ih =>
    intro s htbl h
    rw [applyReps_cons]
    exact ih (repAll pr.1 pr.2 s)
      (fun x hx => htbl x (List.mem_cons_of_mem pr hx))
      (repAll_no_occur pr.1 pr.2 q s (htbl pr (List.mem_cons_self pr tbl)) h)

theorem applyReps_kill (q : Str) (c : Char) (post : List (Str × Char)) (s : Str)
    (hq : q ≠ []) (hc : c ∉ q) (hpost : ∀ pr ∈ post, pr.2 ∉ q) :
    ¬ q <:+: applyReps ((q, c) :: post) s := by
  rw [applyReps_cons]
  exact applyReps_no_occur q post _ hpost
    (repGo_kill q c hq hc s.length s le_rfl)

theorem cleanText_no_occur (q s : Str) (hsp : ' ' ∉ q) (h : ¬ q <:+: s) :
    ¬ q <:+: cleanText s := by
  intro hinf
  rw [cleanText] at hinf
  have h1 : q <:+: repAll "&nbsp;".toList ' ' (collapseWs s) :=
    hinf.trans (jsTrim_occurs_in _)
  have h2 : q <:+: collapseWs s := by
    rw [repAll] at h1
    exact repGo_pres_inf "&nbsp;".toList ' ' (collapseWs s).length (collapseWs s) q le_rfl hsp h1
  exact h (collapseGo_pres_inf s false q hsp h2)

/-- One named entity never survives the normalizer: it is eradicated at its
own stage of the table and no later stage can recreate it. -/
theorem entity_killed (e : Str) (c : Char) (post : List (Str × Char)) (s : Str)
    (hsplit : ∃ pre, normTable = pre ++ (e, c) :: post)
    (hq : e ≠ []) (hc : c ∉ e) (hpost : ∀ pr ∈ post, pr.2 ∉ e) (hsp : ' ' ∉ e) :
    ¬ e <:+: normalizer s := by
  obtain ⟨pre, hpre⟩ := hsplit
  have h1 : ¬ e <:+: normalizeText s := by
    rw [normalizeText, hpre, applyReps_append]
    exact applyReps_kill e c post (applyReps pre s) hq hc hpost
  exact cleanText_no_occur e (normalizeText s) hsp h1

/-! # Claim theorems -/

set_option maxRecDepth 400000 in
/-- C1 (counterexample): on the block sequence `["Question: What is
fasting?", "Answer: Abstention from food."]` the first flushed item is NOT
`("1", "What is fasting? Abstention from food.")` as the claim states: the
machine strips only leading numeric labels and never removes the explicit
`Question:`/`Answer:` words from the text. -/
theorem C1_counterexample :
    ¬ ((qaRun [] blocksC1).head?
        = some ("1".toList, "What is fasting? Abstention from food.".toList)) := by
  decide

set_option maxRecDepth 400000 in
/-- C1 (amended): in the Strategy-B questions pass on the scenario-1 blocks,
the first (and only) flushed item has ordinal "1" and text
"Question: What is fasting? Answer: Abstention from food." — the ordinal
comes from `previousOrdinal + 1`, and only leading numeric labels are
stripped, so the explicit labels survive into the text. -/
theorem C1_amended :
    qaRun [] blocksC1
      = [("1".toList,
          "Question: What is fasting? Answer: Abstention from food.".toList)] := by
  decide

set_option maxRecDepth 400000 in
/-- C6 (counterexample): on the blocks `["3.", "4.", "Question: A",
"Answer: B"]` the emitted items are NOT `[("3", "A B"), ("4", "")]` as
claimed: the Question/Answer labels are not stripped from the text. -/
theorem C6_counterexample :
    ¬ (qaRun [] blocksC6 = [("3".toList, "A B".toList), ("4".toList, [])]) := by
  decide

set_option maxRecDepth 400000 in
/-- C6 (amended): the scenario-3 blocks emit item "3" with text
"Question: A Answer: B" (ordinal dequeued from the pending bare numbers,
labels retained) followed by the zero-text placeholder item "4" produced by
the end-of-range drain. -/
theorem C6_amended :
    qaRun [] blocksC6
      = [("3".toList, "Question: A Answer: B".toList), ("4".toList, [])] := by
  decide

set_option maxRecDepth 400000 in
/-- C2 (counterexample): in `docC2` the catalog has no `intro2` marker, yet
introduction item "3" is emitted — the introduction family's loop has no
`break` at a gap, unlike the other five families. -/
theorem C2_counterexample :
    (catFind (anchorsOf [] [] docC2) "intro2".toList).isSome = false ∧
      ("3".toList, "gamma".toList) ∈ (parseDocument docC2).introduction := by
  decide

/-- C2 (amended): for the preface, description, main-text, questions and
notes families the Strategy-A scan stops at the first missing ordinal, so
an item with ordinal n is only emitted when the markers 1..n are all
present; the introduction family does NOT stop at gaps — it scans every
ordinal up to 300 and emits an item for every present marker with non-empty
text, gap or no gap. -/
theorem C2_amended (cat : List CatEntry) :
    (∀ it ∈ (parseA cat).preface, ∃ n, it.1 = natStr n ∧ 1 ≤ n ∧
       ∀ m, 1 ≤ m → m ≤ n → (catFind cat ("pref".toList ++ natStr m)).isSome = true) ∧
    (∀ it ∈ (parseA cat).description, ∃ n, it.1 = natStr n ∧ 1 ≤ n ∧
       ∀ m, 1 ≤ m → m ≤ n →
         (catFind cat ("description".toList ++ natStr m)).isSome = true) ∧
    (∀ it ∈ (parseA cat).text, ∃ n, it.1 = natStr n ∧ 1 ≤ n ∧
       ∀ m, 1 ≤ m → m ≤ n → (catFind cat ("par".toList ++ natStr m)).isSome = true) ∧
    (∀ it ∈ (parseA cat).questions, ∃ n, it.1 = natStr n ∧ 1 ≤ n ∧
       ∀ m, 1 ≤ m → m ≤ n → (catFind cat ("q".toList ++ natStr m)).isSome = true) ∧
    (∀ it ∈ (parseA cat).notes, ∃ n, it.1 = natStr n ∧ 1 ≤ n ∧
       ∀ m, 1 ≤ m → m ≤ n → (catFind cat ("note".toList ++ natStr m)).isSome = true) ∧
    (∀ (i : Nat) (suf : Str) (e : CatEntry),
       (suf = [] ∨ suf = "b".toList ∨ suf = "c".toList) →
       1 ≤ i → i ≤ 300 →
       catFind cat ("intro".toList ++ natStr i ++ suf) = some e →
       collectA e (catFind cat (introNext cat i suf)) ≠ [] →
       (natStr i ++ suf, collectA e (catFind cat (introNext cat i suf)))
         ∈ (parseA cat).introduction) := by
  refine ⟨?_, ?_, ?_, ?_, ?_, ?_⟩
  · intro it hit
    exact scanFam_mem cat "pref".toList id 50 1 it (by simpa [parseA] using hit)
  · intro it hit
    exact scanFam_mem cat "description".toList id 100 1 it (by simpa [parseA] using hit)
  · intro it hit
    exact scanFam_mem cat "par".toList stripLeadingNumber 1000 1 it
      (by simpa [parseA] using hit)
  · intro it hit
    exact scanFam_mem cat "q".toList stripLeadingNumber 500 1 it
      (by simpa [parseA] using hit)
  · intro it hit
    exact scanFam_mem cat "note".toList id 1000 1 it (by simpa [parseA] using hit)
  · intro i suf e hsuf h1 h300 hfind hraw
    have hmem : (natStr i ++ suf, collectA e (catFind cat (introNext cat i suf)))
        ∈ introItem cat i suf := by
      rw [introItem, hfind]
      simp only [hraw, if_false]
      simp
    have := introScan_mem cat 300 1 i suf _ hsuf h1 (by omega) hmem
    simpa [parseA] using this

set_option maxRecDepth 400000 in
/-- C2 (witness): the gap-chain consequence instantiated on the concrete
one-preface document `docP`. -/
theorem C2_witness :
    (catFind (anchorsOf [] [] docP) ("pref".toList ++ natStr 1)).isSome = true := by
  obtain ⟨n, h1, h2, h3⟩ :=
    (C2_amended (anchorsOf [] [] docP)).1
      ("1".toList, "Hello world".toList) (by decide)
  exact h3 1 le_rfl h2

set_option maxRecDepth 400000 in
/-- C3 (counterexample): in `docC3` the marker `par2` sits inside a `div`
sibling that the walk for item 1 extracts wholesale, so item 1's text
"one two tail" contains the text "two tail" lying at and after `par2` in
document order, and the same text is extracted again for item 2 — the spans
overlap and the boundary text is duplicated. -/
theorem C3_counterexample :
    (parseDocument docC3).text
        = [("1".toList, "one two tail".toList), ("2".toList, "two tail".toList)] ∧
      "two tail".toList <:+: "one two tail".toList := by
  decide

/-- C3 (amended): disjointness holds whenever the second marker is
encountered by the walk at its own traversal level: if every node strictly
between the two markers is a non-anchor sibling distinct from the end
element, and the next marker is a pattern anchor, the collected text is
exactly the contribution of the in-between nodes — nothing at or after the
second marker is extracted.  (When the second marker is nested inside a
visited sibling subtree, the counterexample shows the property fails.) -/
theorem C3_amended (endP : Option NPath) (mq : NPath) (mtag : Str)
    (mattrs : List (Str × Str)) (mcs : List Node)
    (between after : List (NPath × Node)) (up : List (List (NPath × Node)))
    (hm : breakAnchor mattrs = true)
    (h1 : ∀ pr ∈ between, nodeBreaks pr.2 = false)
    (h2 : ∀ pr ∈ between, ¬ endP = some pr.1) :
    walkCollect endP ((between ++ (mq, Node.elem mtag mattrs mcs) :: after) :: up)
      = stepText between :=
  walk_between endP mq mtag mattrs mcs hm between after up h1 h2

/-- C3 (witness): the amended disjointness at a concrete one-node span. -/
theorem C3_witness :
    walkCollect none
        (([(([0, 1] : NPath), Node.text " one ".toList)] ++
          ((([0, 2] : NPath),
            Node.elem "a".toList [("name".toList, "par2".toList)] []) :: [])) :: [])
      = stepText [(([0, 1] : NPath), Node.text " one ".toList)] := by
  exact C3_amended none [0, 2] "a".toList [("name".toList, "par2".toList)] []
    [([0, 1], Node.text " one ".toList)] [] [] (by decide) (by decide) (by decide)

/-- The `(?:\s+|$)` tail never lengthens the remainder. -/
theorem wsPlusOrEnd_length (r rem : Str) (h : wsPlusOrEnd r = some rem) :
    rem.length ≤ r.length := by
  rw [wsPlusOrEnd.eq_def] at h
  split at h
  · injection h with h
    subst h
    simp
  · split at h
    · injection h with h
      subst h
      exact (List.dropWhile_suffix jsWs).length_le
    · exact absurd h (by simp)

/-- The post-digit tail of the strip regex never lengthens the remainder. -/
theorem stripTailMatch_length (r rem : Str) (h : stripTailMatch r = some rem) :
    rem.length ≤ r.length := by
  rw [stripTailMatch] at h
  have hd : (r.dropWhile jsWs).length ≤ r.length := (List.dropWhile_suffix jsWs).length_le
  split at h
  · rename_i p rest heq
    split at h
    · split at h
      · rename_i rem' heq2
        injection h with h
        subst h
        have h3 := wsPlusOrEnd_length rest rem' heq2
        have h4 : (r.dropWhile jsWs).length = rest.length + 1 := by rw [heq]; simp
        omega
      · exact wsPlusOrEnd_length r rem h
    · exact wsPlusOrEnd_length r rem h
  · injection h with h
    subst h
    simp

/-- A successful match of the strip regex consumes at least the digits, so
the replacement result is strictly shorter than the input: each application
of `stripLeadingNumber` that finds a leading numeric label removes it. -/
theorem stripMatch_some_lt (s rem : Str) (h : stripMatch s = some rem) :
    rem.length < s.length := by
  rw [stripMatch] at h
  have hr1 : (s.dropWhile jsWs).length ≤ s.length := (List.dropWhile_suffix jsWs).length_le
  cases hcase : s.dropWhile jsWs with
  | nil =>
    rw [hcase] at h
    simp at h
  | cons c t =>
    rw [hcase] at h
    rw [hcase] at hr1
    simp only [List.length_cons] at hr1
    dsimp only at h
    by_cases hbr : c = '(' ∨ c = '['
    · rw [if_pos hbr] at h
      -- opening bracket consumed: the digit scan works on t
      have ht : (t.dropWhile jsWs).length ≤ t.length := (List.dropWhile_suffix jsWs).length_le
      split at h
      · exact absurd h (by simp)
      · rename_i hcond
        have h1 := stripTailMatch_length _ _ h
        have h2 := congrArg List.length
          (List.takeWhile_append_dropWhile (p := jsDigit) (l := t.dropWhile jsWs))
        simp only [List.length_append] at h2
        omega
    · rw [if_neg hbr] at h
      -- no bracket: the digit scan works on c :: t
      have ht : ((c :: t).dropWhile jsWs).length ≤ t.length + 1 := by
        have := (List.dropWhile_suffix (l := c :: t) jsWs).length_le
        simpa using this
      split at h
      · exact absurd h (by simp)
      · rename_i hcond
        have h1 := stripTailMatch_length _ _ h
        have h2 := congrArg List.length
          (List.takeWhile_append_dropWhile (p := jsDigit) (l := (c :: t).dropWhile jsWs))
        simp only [List.length_append] at h2
        omega

/-- C4 (counterexample): `stripLeadingNumber` is not idempotent — on
"1. 2. foo" the first application leaves "2. foo", which still starts with
a numeric label, so a second application strips again. -/
theorem C4_counterexample :
    ¬ (stripLeadingNumber (stripLeadingNumber "1. 2. foo".toList)
        = stripLeadingNumber "1. 2. foo".toList) := by
  decide

/-- C4 (amended): stripping a string whose leading-label regex does not
match is a no-op; when the regex does match, the application removes
exactly the matched leading label and strictly shortens the string (so a
string beginning with two numeric labels loses one label per application);
consequently stripping is idempotent exactly on those strings whose first
strip leaves no further leading numeric label. -/
theorem C4_amended (s : Str) :
    (stripMatch s = none → stripLeadingNumber s = s) ∧
    (∀ r, stripMatch s = some r →
      stripLeadingNumber s = r ∧ r.length < s.length) ∧
    (stripLeadingNumber (stripLeadingNumber s) = stripLeadingNumber s ↔
      stripMatch (stripLeadingNumber s) = none) := by
  refine ⟨fun h => by rw [stripLeadingNumber, h],
    fun r h => ⟨by rw [stripLeadingNumber, h], stripMatch_some_lt s r h⟩, ?_, ?_⟩
  · intro hid
    cases hsm : stripMatch (stripLeadingNumber s) with
    | none => rfl
    | some r =>
      have h1 : stripLeadingNumber (stripLeadingNumber s) = r := by
        rw [stripLeadingNumber, hsm]
      have h2 := stripMatch_some_lt (stripLeadingNumber s) r hsm
      rw [hid] at h1
      rw [h1] at h2
      omega
  · intro h
    rw [stripLeadingNumber, h]

/-- C4 (witness): the no-op and idempotence on the label-free string "foo". -/
theorem C4_witness :
    stripMatch "foo".toList = none ∧
      stripLeadingNumber "foo".toList = "foo".toList :=
  ⟨by decide, (C4_amended "foo".toList).1 (by decide)⟩

/-- C5 (counterexample): the normalizer's output CAN contain a whitespace
run: `&nbsp;` is replaced by a space only after whitespace collapsing, so
"a&nbsp;&nbsp;b" normalizes to "a  b" with two adjacent spaces. -/
theorem C5_counterexample :
    normalizer "a&nbsp;&nbsp;b".toList = "a  b".toList ∧
      hasWsRun (normalizer "a&nbsp;&nbsp;b".toList) = true := by
  decide

/-- C5 (amended): for every input that does not contain the sequence
"&nbsp;", the normalizer's output has no run of two or more whitespace
characters, no leading or trailing whitespace, and no surviving occurrence
of any named entity of the fixed table.  (Inputs containing "&nbsp;" can
produce space runs, as the counterexample shows, because that replacement
happens after collapsing.) -/
theorem C5_amended (s : Str) (hnb : ¬ "&nbsp;".toList <:+: s) :
    hasWsRun (normalizer s) = false ∧ noEdgeWs (normalizer s) = true ∧
    ¬ "&aacute;".toList <:+: normalizer s ∧ ¬ "&iacute;".toList <:+: normalizer s ∧
    ¬ "&uacute;".toList <:+: normalizer s ∧ ¬ "&eacute;".toList <:+: normalizer s ∧
    ¬ "&oacute;".toList <:+: normalizer s := by
  refine ⟨?_, ?_, ?_, ?_, ?_, ?_, ?_⟩
  · have h1 : ¬ "&nbsp;".toList <:+: normalizeText s := by
      rw [normalizeText]
      exact applyReps_no_occur _ normTable s (by decide) hnb
    have h2 : ¬ "&nbsp;".toList <:+: collapseWs (normalizeText s) := by
      intro hx
      exact h1 (collapseGo_pres_inf (normalizeText s) false _ (by decide) hx)
    have h3 : repAll "&nbsp;".toList ' ' (collapseWs (normalizeText s))
        = collapseWs (normalizeText s) := by
      rw [repAll]
      exact repGo_noop _ ' ' _ h2
    show hasWsRun (cleanText (normalizeText s)) = false
    rw [cleanText, h3]
    exact hasWsRun_of_occur (jsTrim_occurs_in _) (collapseGo_noRun _ false)
  · show noEdgeWs (cleanText (normalizeText s)) = true
    rw [cleanText]
    exact jsTrim_noEdge _
  · exact entity_killed "&aacute;".toList 'á' (normTable.drop 1) s
      ⟨normTable.take 0, by decide⟩ (by decide) (by decide) (by decide) (by decide)
  · exact entity_killed "&iacute;".toList 'í' (normTable.drop 2) s
      ⟨normTable.take 1, by decide⟩ (by decide) (by decide) (by decide) (by decide)
  · exact entity_killed "&uacute;".toList 'ú' (normTable.drop 3) s
      ⟨normTable.take 2, by decide⟩ (by decide) (by decide) (by decide) (by decide)
  · exact entity_killed "&eacute;".toList 'é' (normTable.drop 4) s
      ⟨normTable.take 3, by decide⟩ (by decide) (by decide) (by decide) (by decide)
  · exact entity_killed "&oacute;".toList 'ó' (normTable.drop 5) s
      ⟨normTable.take 4, by decide⟩ (by decide) (by decide) (by decide) (by decide)

/-- C5 (witness): the amended property instantiated on "x  y&aacute;z". -/
theorem C5_witness :
    (¬ "&nbsp;".toList <:+: "x  y&aacute;z".toList) ∧
      hasWsRun (normalizer "x  y&aacute;z".toList) = false :=
  ⟨by decide, (C5_amended "x  y&aacute;z".toList (by decide)).1⟩

/-- C7: whenever the anchor catalog contains one of the trigger markers
(`par1`, `intro1` or `pref1`), `parseDocument` is Strategy A applied to the
catalog — the navigation-based Strategy B code path is never reached,
whatever navigation-like blocks the document contains. -/
theorem C7_strategyA (root : Node)
    (h : legacyHasContent (anchorsOf [] [] root) = true) :
    parseDocument root = parseA (anchorsOf [] [] root) := by
  rw [parseDocument]
  simp [h]

set_option maxRecDepth 400000 in
/-- C7 (witness): `docC7` carries both the `pref1` trigger and a structurally
present `nav.gc` block, and its model is Strategy A's. -/
theorem C7_witness :
    legacyHasContent (anchorsOf [] [] docC7) = true ∧
      (findNav docC7).isSome = true ∧
      parseDocument docC7 = parseA (anchorsOf [] [] docC7) :=
  ⟨by decide, by decide, C7_strategyA docC7 (by decide)⟩

/-- C8: a document with neither a Strategy-A trigger marker nor a
recognized `nav.gc` navigation block yields the all-empty section model —
no error path exists (the embedding is a total function). -/
theorem C8_emptyModel (root : Node)
    (h1 : legacyHasContent (anchorsOf [] [] root) = false)
    (h2 : findNav root = none) :
    parseDocument root = emptySections := by
  rw [parseDocument]
  simp [h1, stratB, h2]

set_option maxRecDepth 400000 in
/-- C8 (witness): the empty-model fallback on the concrete `docC8`. -/
theorem C8_witness :
    legacyHasContent (anchorsOf [] [] docC8) = false ∧
      findNav docC8 = none ∧ parseDocument docC8 = emptySections :=
  ⟨by decide, by rfl, C8_emptyModel docC8 (by decide) (by rfl)⟩

/-- C9: the inline formatting extractor is a total function in this
embedding (it is defined for every `Option Node`); a JavaScript `null` node
yields the empty string, and a hyperlink child whose `href` attribute is
missing behaves exactly like one whose `href` is the empty string: both are
unwrapped to their children's extraction without any exception. -/
theorem C9_extractor_total :
    extractTWFOpt none = [] ∧
    (∀ (attrs : List (Str × Str)) (cs rest : List Node),
      getAttr attrs "href".toList = none →
      extractList (Node.elem "a".toList attrs cs :: rest)
        = extractList cs ++ extractList rest) ∧
    (∀ (attrs : List (Str × Str)) (cs rest : List Node),
      getAttr attrs "href".toList = some [] →
      extractList (Node.elem "a".toList attrs cs :: rest)
        = extractList cs ++ extractList rest) := by
  refine ⟨rfl, ?_, ?_⟩
  · intro attrs cs rest h
    rw [extractList]
    congr 1
    rw [extractChild, h]
    simp +decide
  · intro attrs cs rest h
    rw [extractList]
    congr 1
    rw [extractChild, h]
    simp +decide

/-- C9 (witness): an anchor element with no attributes at all is unwrapped. -/
theorem C9_witness :
    extractList [Node.elem "a".toList [] [Node.text "x".toList]]
      = extractList [Node.text "x".toList] ++ extractList [] :=
  C9_extractor_total.2.1 [] [Node.text "x".toList] [] (by decide)

/-- C10: under Strategy A the emitted item counts are bounded by the fixed
scan ceilings: 50 preface, 900 introduction (300 ordinals × 3 suffixes),
100 description, 1000 main-text, 500 question and 1000 note items. -/
theorem C10_bounds (root : Node)
    (h : legacyHasContent (anchorsOf [] [] root) = true) :
    (parseDocument root).preface.length ≤ 50 ∧
    (parseDocument root).introduction.length ≤ 900 ∧
    (parseDocument root).description.length ≤ 100 ∧
    (parseDocument root).text.length ≤ 1000 ∧
    (parseDocument root).questions.length ≤ 500 ∧
    (parseDocument root).notes.length ≤ 1000 := by
  have hp : parseDocument root = parseA (anchorsOf [] [] root) := by
    rw [parseDocument]
    simp [h]
  rw [hp]
  refine ⟨?_, ?_, ?_, ?_, ?_, ?_⟩
  · simpa [parseA] using scanFam_length (anchorsOf [] [] root) "pref".toList id 50 1
  · simpa [parseA] using introScan_length (anchorsOf [] [] root) 300 1
  · simpa [parseA] using
      scanFam_length (anchorsOf [] [] root) "description".toList id 100 1
  · simpa [parseA] using
      scanFam_length (anchorsOf [] [] root) "par".toList stripLeadingNumber 1000 1
  · simpa [parseA] using
      scanFam_length (anchorsOf [] [] root) "q".toList stripLeadingNumber 500 1
  · simpa [parseA] using scanFam_length (anchorsOf [] [] root) "note".toList id 1000 1

set_option maxRecDepth 400000 in
/-- C10 (witness): the bounds on the concrete legacy document `docP`. -/
theorem C10_witness :
    (parseDocument docP).preface.length ≤ 50 ∧
    (parseDocument docP).introduction.length ≤ 900 ∧
    (parseDocument docP).description.length ≤ 100 ∧
    (parseDocument docP).text.length ≤ 1000 ∧
    (parseDocument docP).questions.length ≤ 500 ∧
    (parseDocument docP).notes.length ≤ 1000 :=
  C10_bounds docP (by decide)
